import Mathlib

set_option maxRecDepth 8000

/-!
Verification of `strategies.py` (greg-finley/ilovedraws): a shallow embedding of
the strategy classes (`MinimalEngine`, `FillerEngine`, `RandomMove`,
`Alphabetical`, `FirstMove`, `WorstFish`) and a model of the `ILoveDraws`
policy described by the design document, together with proofs and refutations
of the frozen claims about them.

Modelling conventions:
  * A move is a value of an arbitrary type `M`.  The board collaborator
    (python-chess `Board`) is mutated only through `push`/`pop`; we model the
    mutable part as the stack of pushed moves (`List M`, most recent first)
    and the board's observation functions (`legal_moves`, `is_capture`,
    `is_check`, `turn`) as pure functions of that stack, collected in
    `BoardFns`.
  * `random.choice(l)` draws a uniformly random element of `l`; we model the
    randomness source as a natural number `r` and the call as returning the
    element at index `r % len(l)`; the `IndexError` it raises on an empty
    list is modelled as `none`.
  * Stockfish (`SimpleEngine.analyse`) is an opaque function from the board
    state (the stack) and the time limit passed to it to a score; scores
    (`result["score"].relative`) form a linear order, modelled as `ℤ`
    (centipawn-like).  Clock times are modelled as `ℚ`.
-/

/-- Model of `random.choice(l)` with randomness source `r`: the element at
index `r % len(l)`; `none` models the `IndexError` raised on an empty list. -/
def randomChoice {α : Type} (l : List α) (r : ℕ) : Option α :=
  l.get? (r % l.length)

/-- The `timeLeft` argument of `search`: either the remaining clock time in
milliseconds, or (on the first move) a `chess.engine.Limit` object, which
`WorstFish.search` detects with `type(timeLeft) != chess.engine.Limit`. -/
inductive TimeLeft where
  | clock : ℚ → TimeLeft
  | limit : TimeLeft

/-- The per-candidate search time computed at the top of `WorstFish.search`:
base `searchTime = 0.1`; when `timeLeft` is not a `Limit` it is converted from
milliseconds to seconds and, if `len(legalMoves) * searchTime > timeLeft / 10`,
`searchTime` is replaced by `(timeLeft / 10) / len(legalMoves)`. -/
def searchTimeOf (timeLeft : TimeLeft) (n : ℕ) : ℚ :=
  match timeLeft with
  | .limit => 1/10
  | .clock ms =>
    let t := ms / 1000
    if (n : ℚ) * (1/10) > t / 10 then (t / 10) / (n : ℚ) else 1/10

/-- The observation functions of the board collaborator, as pure functions of
the stack of pushed moves (most recent first). -/
structure BoardFns (M : Type) where
  legal : List M → List M
  isCapture : List M → M → Bool
  isCheck : List M → Bool
  turn : List M → Bool

/-- `RandomMove.search`: `random.choice(list(board.legal_moves))`. -/
def RandomMove.search {M : Type} (legalMoves : List M) (r : ℕ) : Option M :=
  randomChoice legalMoves r

/-- `Alphabetical.search`: `moves.sort(key=board.san); return moves[0]`
(`none` models the `IndexError` of `moves[0]` on an empty list). -/
def Alphabetical.search {M : Type} (san : M → String) (legalMoves : List M) : Option M :=
  (legalMoves.insertionSort (fun a b => san a ≤ san b)).head?

/-- `FirstMove.search`: `moves.sort(key=str); return moves[0]` (`str(move)`
is the move's UCI text). -/
def FirstMove.search {M : Type} (uci : M → String) (legalMoves : List M) : Option M :=
  (legalMoves.insertionSort (fun a b => uci a ≤ uci b)).head?

/-- `MinimalEngine.search_with_ponder`: picks `wtime` when `board.turn` is
white, else `btime`, and delegates to `self.search` (the initial dead
assignment `timeleft = 0` is overwritten on both branches and is omitted).
`searchFn` stands for the concrete policy's `search` method; `T` is the type
of the clock arguments (untyped in the source). -/
def MinimalEngine.search_with_ponder {B T α : Type} (searchFn : B → T → Bool → α)
    (turn : B → Bool) (board : B) (wtime btime : T) (winc binc : T) (ponder : Bool) : α :=
  let timeleft := if turn board then wtime else btime
  searchFn board timeleft ponder

/-- `MinimalEngine.notify`: the default lifecycle hook; its body is `pass`,
so it returns `None` on all inputs.  `V` is the (untyped) python value type. -/
def MinimalEngine.notify {V : Type} (method_name : String) (args : List V) : Option V :=
  none

/-- A python attribute as seen by an attribute access on the shim: a plain
value found in the instance dictionary, an attribute found on the class or a
base class during normal lookup (a bound method such as `__init__`, or an
inherited `object` attribute — in either case not the `__getattr__` closure
and never forwarding to `notify`), or the closure built by `__getattr__`. -/
inductive Attr (V : Type) where
  | value : V → Attr V
  | classAttr : String → Attr V
  | method : (List V → Option V) → Attr V

/-- The `FillerEngine` shim.  Its constructor stores the instance attributes
`id`, `name` and `main_engine` in the instance dictionary; `mainNotify` is the
owning engine's `notify` method (the only thing `__getattr__` uses of
`main_engine`). -/
structure FillerEngine (V : Type) where
  id : V
  name : V
  main_engine : V
  mainNotify : String → List V → Option V

/-- The attribute names normal Python lookup finds on the `FillerEngine`
class or its bases before `__getattr__` is consulted: the two methods the
class body defines (`__init__`, `__getattr__`) and the standard attributes
inherited from `object` (CPython). -/
def FillerEngine.classAttrs : List String :=
  ["__init__", "__getattr__",
   "__class__", "__delattr__", "__dict__", "__dir__", "__doc__", "__eq__",
   "__format__", "__ge__", "__getattribute__", "__gt__", "__hash__",
   "__init_subclass__", "__le__", "__lt__", "__module__", "__ne__", "__new__",
   "__reduce__", "__reduce_ex__", "__repr__", "__setattr__", "__sizeof__",
   "__str__", "__subclasshook__", "__weakref__"]

/-- Python attribute lookup on a `FillerEngine`: the instance dictionary
(`id`, `name`, `main_engine`, stored by the constructor) and the class MRO
(`FillerEngine.classAttrs`) are searched first; `__getattr__` is invoked only
when both fail, and only then does the access yield the closure `method`
that forwards to `main_engine.notify(method_name, *args, **kwargs)`. -/
def FillerEngine.getattr {V : Type} (fe : FillerEngine V) (method_name : String) : Attr V :=
  if method_name = "id" then Attr.value fe.id
  else if method_name = "name" then Attr.value fe.name
  else if method_name = "main_engine" then Attr.value fe.main_engine
  else if method_name ∈ FillerEngine.classAttrs then Attr.classAttr method_name
  else Attr.method (fun args => fe.mainNotify method_name args)

/-- `WorstFish.evaluate`: queries stockfish with
`chess.engine.Limit(time=timeLimit - 0.01)` and returns
`result["score"].relative`.  The result is paired with a record of the oracle
call (the board stack it was made on and the time limit actually passed). -/
def WorstFish.evaluate {M : Type} (stockfish : List M → ℚ → ℤ)
    (stack : List M) (timeLimit : ℚ) : ℤ × (List M × ℚ) :=
  (stockfish stack (timeLimit - 1/100), (stack, timeLimit - 1/100))

/-- The evaluation loop of `WorstFish.search` (`for move in legalMoves`).
State: current stack, `worstEvaluation`, `worstMoves` (each move carried with
its `isCapture`/`isCheck` tags, which the source stores on the move object),
and the log of oracle calls.  Each iteration tags the capture status, pushes
the move, tags the check status, evaluates, updates the running maximum and
its tie set, and pops. -/
def WorstFish.evalLoop {M : Type} (fns : BoardFns M) (stockfish : List M → ℚ → ℤ)
    (sTime : ℚ) :
    List M → List M × Option ℤ × List (M × Bool × Bool) × List (List M × ℚ) →
    List M × Option ℤ × List (M × Bool × Bool) × List (List M × ℚ)
  | [], s => s
  | move :: rest, (stack, worstEvaluation, worstMoves, calls) =>
    let isCapture := fns.isCapture stack move
    let stack1 := move :: stack
    let isCheck := fns.isCheck stack1
    let ev := WorstFish.evaluate stockfish stack1 sTime
    let evaluation := ev.1
    let next :=
      match worstEvaluation with
      | none => (some evaluation, [(move, isCapture, isCheck)])
      | some w =>
        if w < evaluation then (some evaluation, [(move, isCapture, isCheck)])
        else if w = evaluation then (some w, worstMoves ++ [(move, isCapture, isCheck)])
        else (some w, worstMoves)
    WorstFish.evalLoop fns stockfish sTime rest
      (stack1.tail, next.1, next.2, calls ++ [ev.2])

/-- The categorisation loop of `WorstFish.search`: splits `worstMoves` into
`worstCaptures` (`move.isCapture`), `worstChecks` (`elif move.isCheck`) and
`worstOther` (`else`), in order. -/
def WorstFish.categorise {M : Type} (worstMoves : List (M × Bool × Bool)) :
    List (M × Bool × Bool) × List (M × Bool × Bool) × List (M × Bool × Bool) :=
  worstMoves.foldl
    (fun s t =>
      if t.2.1 then (s.1 ++ [t], s.2.1, s.2.2)
      else if t.2.2 then (s.1, s.2.1 ++ [t], s.2.2)
      else (s.1, s.2.1, s.2.2 ++ [t]))
    ([], [], [])

/-- The observable outcome of one `WorstFish.search` call: the returned move
(with the tags the source left on the move object), the final board stack, and
the intermediate quantities the claims speak about. -/
structure WFResult (M : Type) where
  chosen : Option (M × Bool × Bool)
  finalStack : List M
  worstEvaluation : Option ℤ
  worstMoves : List (M × Bool × Bool)
  worstCaptures : List (M × Bool × Bool)
  worstChecks : List (M × Bool × Bool)
  worstOther : List (M × Bool × Bool)
  oracleCalls : List (List M × ℚ)

/-- `WorstFish.search`: reads `legalMoves` from the board, computes
`searchTime`, runs the evaluation loop, categorises the tied worst moves and
returns `random.choice` of the first non-empty category in the order
other / checks / captures (`len(...) != 0` tests). -/
def WorstFish.search {M : Type} (fns : BoardFns M) (stockfish : List M → ℚ → ℤ)
    (timeLeft : TimeLeft) (r : ℕ) (stack0 : List M) : WFResult M :=
  let legalMoves := fns.legal stack0
  let sTime := searchTimeOf timeLeft legalMoves.length
  let res := WorstFish.evalLoop fns stockfish sTime legalMoves (stack0, none, [], [])
  let cats := WorstFish.categorise res.2.2.1
  let chosen :=
    if cats.2.2.length ≠ 0 then randomChoice cats.2.2 r
    else if cats.2.1.length ≠ 0 then randomChoice cats.2.1 r
    else randomChoice cats.1 r
  { chosen := chosen
    finalStack := res.1
    worstEvaluation := res.2.1
    worstMoves := res.2.2.1
    worstCaptures := cats.1
    worstChecks := cats.2.1
    worstOther := cats.2.2
    oracleCalls := res.2.2.2 }

/-- Modelled from the spec: the `ILoveDraws` policy is not in `src/` (only the
design document describes it, §4.5).  Its drawishness threshold defaults
to `0.1`. -/
def ILoveDraws.threshold : ℚ := 1/10

/-- Modelled from the spec: the candidate loop of `ILoveDraws.search` over the
shuffled legal moves.  For each move: query the oracle for the evaluation of
the position after the move, take its absolute value; if it is at most the
threshold, return the move immediately (no further candidate is examined);
otherwise update the running minimum absolute evaluation and its tie set.  If
the loop finishes, return a uniformly random element of the tie set.  The
second component of the result is the list of moves the oracle was queried
for, in order. -/
def ILoveDraws.loop {M : Type} (oracle : M → ℚ) (threshold : ℚ) (r : ℕ) :
    List M → Option ℚ × List M × List M → Option M × List M
  | [], (_, ties, queried) => (randomChoice ties r, queried)
  | move :: rest, (minAbs, ties, queried) =>
    let e := |oracle move|
    if e ≤ threshold then (some move, queried ++ [move])
    else
      match minAbs with
      | none => ILoveDraws.loop oracle threshold r rest (some e, [move], queried ++ [move])
      | some b =>
        if e < b then ILoveDraws.loop oracle threshold r rest (some e, [move], queried ++ [move])
        else if e = b then
          ILoveDraws.loop oracle threshold r rest (some b, ties ++ [move], queried ++ [move])
        else ILoveDraws.loop oracle threshold r rest (some b, ties, queried ++ [move])

/-- Modelled from the spec: `ILoveDraws.search` shuffles the legal moves and
runs the candidate loop; `shuffled` is the legal-move list after
`random.shuffle`. -/
def ILoveDraws.search {M : Type} (oracle : M → ℚ) (threshold : ℚ)
    (shuffled : List M) (r : ℕ) : Option M × List M :=
  ILoveDraws.loop oracle threshold r shuffled (none, [], [])

/-- The time limit actually passed to stockfish by `WorstFish.evaluate` when
`WorstFish.search` allocates the per-candidate time: `searchTime - 0.01`. -/
def oracleTimeArg (timeLeft : TimeLeft) (n : ℕ) : ℚ :=
  searchTimeOf timeLeft n - 1/100

/-- The evaluation `WorstFish.search` obtains for a candidate move `m`:
stockfish queried on the board with `m` pushed, at the allocated time limit
(`n` is the number of legal moves). -/
def WorstFish.evalOf {M : Type} (stockfish : List M → ℚ → ℤ) (timeLeft : TimeLeft)
    (stack0 : List M) (n : ℕ) (m : M) : ℤ :=
  stockfish (m :: stack0) (oracleTimeArg timeLeft n)

/-- The capture/check tags `WorstFish.search` stores on a candidate move:
`board.is_capture(move)` before the push, `board.is_check()` after it. -/
def tagOf {M : Type} (fns : BoardFns M) (stack : List M) (m : M) : M × Bool × Bool :=
  (m, fns.isCapture stack m, fns.isCheck (m :: stack))

/-- Running maximum of `f` over a list, started at `w` (the shape of the
`worstEvaluation` update in the evaluation loop). -/
def runMax {M : Type} (f : M → ℤ) (w : ℤ) (l : List M) : ℤ :=
  l.foldl (fun a m => max a (f m)) w

/-- Abbreviation: the score stockfish reports for the position with `m` pushed
onto `stack`, at per-candidate time `sTime` (the oracle receives
`sTime - 0.01`). -/
def stockEval {M : Type} (stockfish : List M → ℚ → ℤ) (sTime : ℚ) (stack : List M)
    (m : M) : ℤ :=
  stockfish (m :: stack) (sTime - 1/100)

/-- The evaluation `WorstFish.search` compares and maximises, as a function of
the candidate move, with the number of legal moves fixed by the position. -/
def WorstFish.evalW {M : Type} (stockfish : List M → ℚ → ℤ) (timeLeft : TimeLeft)
    (stack0 : List M) (m : M) (rest : List M) : ℤ :=
  runMax (WorstFish.evalOf stockfish timeLeft stack0 (m :: rest).length)
    (WorstFish.evalOf stockfish timeLeft stack0 (m :: rest).length m) rest

/-- Running minimum of `f` over a list, started at `b` (the shape of the
running-minimum update in the `ILoveDraws` candidate loop). -/
def runMin {M : Type} (f : M → ℚ) (b : ℚ) (l : List M) : ℚ :=
  l.foldl (fun a m => min a (f m)) b

/-- A one-legal-move board over moves numbered by naturals, used to instantiate
the general theorems at concrete inputs. -/
def exFns : BoardFns ℕ :=
  { legal := fun _ => [0]
    isCapture := fun _ _ => false
    isCheck := fun _ => false
    turn := fun _ => true }

/-- A constant stockfish stub. -/
def exSf : List ℕ → ℚ → ℤ := fun _ _ => 0

/-- A two-legal-move board for the tie-break refutation: both moves are
captures, move `0` also gives check (the check flag reads the pushed move at
the top of the stack), move `1` does not. -/
def exFnsC4 : BoardFns ℕ :=
  { legal := fun _ => [0, 1]
    isCapture := fun _ _ => true
    isCheck := fun s => s.head? == some 0
    turn := fun _ => true }

/-- A constant stockfish stub making every move tie at evaluation `5`. -/
def exSfC4 : List ℕ → ℚ → ℤ := fun _ _ => 5

/-- A concrete `FillerEngine` over naturals whose owning engine's `notify`
returns `7`, to exhibit the instance attributes shadowing `__getattr__`. -/
def exFE : FillerEngine ℕ :=
  { id := 0
    name := 1
    main_engine := 2
    mainNotify := fun _ _ => some 7 }


theorem runMax_nil {M : Type} (f : M → ℤ) (w : ℤ) : runMax f w [] = w := rfl

theorem runMax_cons {M : Type} (f : M → ℤ) (w : ℤ) (m : M) (l : List M) :
    runMax f w (m :: l) = runMax f (max w (f m)) l := rfl

theorem le_runMax {M : Type} (f : M → ℤ) (w : ℤ) (l : List M) : w ≤ runMax f w l := by
  induction l generalizing w with
  | nil => exact le_refl w
  | cons m t ih => exact le_trans (le_max_left w (f m)) (ih (max w (f m)))

theorem runMax_bound {M : Type} (f : M → ℤ) (w : ℤ) (l : List M) :
    ∀ x ∈ l, f x ≤ runMax f w l := by
  induction l generalizing w with
  | nil => intro x hx; cases hx
  | cons m t ih =>
    intro x hx
    rcases List.mem_cons.mp hx with h | h
    · subst h
      exact le_trans (le_max_right w (f x)) (le_runMax f (max w (f x)) t)
    · exact ih (max w (f m)) x h

theorem runMax_mem {M : Type} (f : M → ℤ) (w : ℤ) (l : List M) :
    runMax f w l = w ∨ ∃ x ∈ l, runMax f w l = f x := by
  induction l generalizing w with
  | nil => exact Or.inl rfl
  | cons m t ih =>
    rw [runMax_cons]
    rcases ih (max w (f m)) with h | h
    · rcases max_choice w (f m) with hm | hm
      · exact Or.inl (h.trans hm)
      · exact Or.inr ⟨m, List.mem_cons_self m t, h.trans hm⟩
    · rcases h with ⟨x, hx, hfx⟩
      exact Or.inr ⟨x, List.mem_cons_of_mem m hx, hfx⟩

theorem randomChoice_mem {α : Type} {l : List α} {r : ℕ} {a : α}
    (h : randomChoice l r = some a) : a ∈ l :=
  List.get?_mem h

theorem randomChoice_isSome {α : Type} {l : List α} (r : ℕ) (h : l ≠ []) :
    ∃ a, randomChoice l r = some a := by
  have hlen : 0 < l.length := List.length_pos.mpr h
  have hlt : r % l.length < l.length := Nat.mod_lt r hlen
  exact ⟨l.get ⟨r % l.length, hlt⟩, List.get?_eq_get hlt⟩

theorem randomChoice_surj {α : Type} {l : List α} {a : α} (h : a ∈ l) :
    ∃ r, randomChoice l r = some a := by
  rcases List.mem_iff_get?.mp h with ⟨n, hn⟩
  have hlt : n < l.length := by
    rcases List.get?_eq_some.mp hn with ⟨hlt, _⟩
    exact hlt
  refine ⟨n, ?_⟩
  unfold randomChoice
  rw [Nat.mod_eq_of_lt hlt]
  exact hn

theorem head_mem_of_head?_eq_some {α : Type} {l : List α} {a : α}
    (h : l.head? = some a) : a ∈ l := by
  cases l with
  | nil => cases h
  | cons x t =>
    simp only [List.head?_cons, Option.some.injEq] at h
    rw [← h]
    exact List.mem_cons_self x t

theorem evalOf_eq_stockEval {M : Type} (stockfish : List M → ℚ → ℤ) (timeLeft : TimeLeft)
    (stack0 : List M) (n : ℕ) :
    WorstFish.evalOf stockfish timeLeft stack0 n =
      stockEval stockfish (searchTimeOf timeLeft n) stack0 := rfl

theorem WorstFish.categorise_go {M : Type} (l : List (M × Bool × Bool))
    (a b c : List (M × Bool × Bool)) :
    l.foldl
      (fun s t =>
        if t.2.1 then (s.1 ++ [t], s.2.1, s.2.2)
        else if t.2.2 then (s.1, s.2.1 ++ [t], s.2.2)
        else (s.1, s.2.1, s.2.2 ++ [t]))
      (a, b, c) =
    (a ++ l.filter (fun t => t.2.1),
     b ++ l.filter (fun t => !t.2.1 && t.2.2),
     c ++ l.filter (fun t => !t.2.1 && !t.2.2)) := by
  induction l generalizing a b c with
  | nil => simp
  | cons t rest ih =>
    simp only [List.foldl_cons, List.filter_cons]
    cases h1 : t.2.1 with
    | true => simp [h1, ih]
    | false =>
      cases h2 : t.2.2 with
      | true => simp [h1, h2, ih]
      | false => simp [h1, h2, ih]

theorem WorstFish.categorise_eq {M : Type} (l : List (M × Bool × Bool)) :
    WorstFish.categorise l =
      (l.filter (fun t => t.2.1), l.filter (fun t => !t.2.1 && t.2.2),
       l.filter (fun t => !t.2.1 && !t.2.2)) := by
  unfold WorstFish.categorise
  simpa using WorstFish.categorise_go l [] [] []


theorem stockEval_fold {M : Type} (stockfish : List M → ℚ → ℤ) (sTime : ℚ)
    (stack : List M) (m : M) :
    stockfish (m :: stack) (sTime - 1/100) = stockEval stockfish sTime stack m := rfl

theorem tagOf_fold {M : Type} (fns : BoardFns M) (stack : List M) (m : M) :
    (m, fns.isCapture stack m, fns.isCheck (m :: stack)) = tagOf fns stack m := rfl

theorem WorstFish.evalLoop_some {M : Type} (fns : BoardFns M)
    (stockfish : List M → ℚ → ℤ) (sTime : ℚ) (stack : List M) (l : List M) :
    ∀ (w : ℤ) (acc : List (M × Bool × Bool)) (calls : List (List M × ℚ)),
    WorstFish.evalLoop fns stockfish sTime l (stack, some w, acc, calls) =
      (stack,
       some (runMax (stockEval stockfish sTime stack) w l),
       (if w = runMax (stockEval stockfish sTime stack) w l then acc else []) ++
         (l.filter (fun m =>
            decide (stockEval stockfish sTime stack m =
              runMax (stockEval stockfish sTime stack) w l))).map (tagOf fns stack),
       calls ++ l.map (fun m => (m :: stack, sTime - 1/100))) := by
  induction l with
  | nil =>
    intro w acc calls
    simp [WorstFish.evalLoop, runMax_nil]
  | cons m rest ih =>
    intro w acc calls
    simp only [WorstFish.evalLoop, WorstFish.evaluate, List.tail_cons, stockEval_fold,
      tagOf_fold]
    rcases lt_trichotomy w (stockEval stockfish sTime stack m) with hlt | heq | hgt
    · rw [if_pos hlt]
      simp only [ih]
      have hwne : w ≠ runMax (stockEval stockfish sTime stack) w (m :: rest) := by
        rw [runMax_cons, max_eq_right hlt.le]
        exact ne_of_lt (lt_of_lt_of_le hlt (le_runMax _ _ _))
      rw [if_neg hwne, runMax_cons, max_eq_right hlt.le, List.filter_cons]
      by_cases he : stockEval stockfish sTime stack m =
          runMax (stockEval stockfish sTime stack) (stockEval stockfish sTime stack m) rest
      · rw [if_pos he, if_pos (decide_eq_true he)]
        simp
      · rw [if_neg he, if_neg (by simpa using he)]
        simp
    · rw [if_neg (by rw [← heq] at *; exact lt_irrefl w), if_pos heq]
      simp only [ih]
      have hmax : runMax (stockEval stockfish sTime stack) w (m :: rest) =
          runMax (stockEval stockfish sTime stack) w rest := by
        rw [runMax_cons, ← heq, max_self]
      rw [hmax, List.filter_cons]
      by_cases hw : w = runMax (stockEval stockfish sTime stack) w rest
      · have hme : stockEval stockfish sTime stack m =
            runMax (stockEval stockfish sTime stack) w rest := by rw [← heq]; exact hw
        rw [if_pos hw, if_pos hw, if_pos (decide_eq_true hme)]
        simp
      · have hme : ¬ (stockEval stockfish sTime stack m =
            runMax (stockEval stockfish sTime stack) w rest) := by rw [← heq]; exact hw
        rw [if_neg hw, if_neg hw, if_neg (by simpa using hme)]
        simp
    · rw [if_neg (not_lt.mpr hgt.le), if_neg (ne_of_gt hgt)]
      simp only [ih]
      have hmax : runMax (stockEval stockfish sTime stack) w (m :: rest) =
          runMax (stockEval stockfish sTime stack) w rest := by
        rw [runMax_cons, max_eq_left hgt.le]
      have hne : ¬ (stockEval stockfish sTime stack m =
          runMax (stockEval stockfish sTime stack) w rest) :=
        ne_of_lt (lt_of_lt_of_le hgt (le_runMax _ _ _))
      have hd : ¬(decide (stockEval stockfish sTime stack m =
          runMax (stockEval stockfish sTime stack) w rest) = true) := by simpa using hne
      rw [hmax, List.filter_cons, if_neg hd]
      simp

theorem WorstFish.evalLoop_cons_none {M : Type} (fns : BoardFns M)
    (stockfish : List M → ℚ → ℤ) (sTime : ℚ) (stack : List M) (m : M) (rest : List M) :
    WorstFish.evalLoop fns stockfish sTime (m :: rest) (stack, none, [], []) =
      (stack,
       some (runMax (stockEval stockfish sTime stack) (stockEval stockfish sTime stack m) rest),
       ((m :: rest).filter (fun x =>
          decide (stockEval stockfish sTime stack x =
            runMax (stockEval stockfish sTime stack)
              (stockEval stockfish sTime stack m) rest))).map (tagOf fns stack),
       (m :: rest).map (fun x => (x :: stack, sTime - 1/100))) := by
  simp only [WorstFish.evalLoop, WorstFish.evaluate, List.tail_cons, stockEval_fold,
    tagOf_fold]
  rw [WorstFish.evalLoop_some]
  rw [List.filter_cons]
  by_cases he : stockEval stockfish sTime stack m =
      runMax (stockEval stockfish sTime stack) (stockEval stockfish sTime stack m) rest
  · rw [if_pos he, if_pos (decide_eq_true he)]
    simp
  · rw [if_neg he, if_neg (by simpa using he)]
    simp

theorem WorstFish.search_fields {M : Type} (fns : BoardFns M)
    (stockfish : List M → ℚ → ℤ) (timeLeft : TimeLeft) (r : ℕ) (stack0 : List M)
    (m : M) (rest : List M) (hl : fns.legal stack0 = m :: rest) :
    (WorstFish.search fns stockfish timeLeft r stack0).worstEvaluation =
      some (WorstFish.evalW stockfish timeLeft stack0 m rest) ∧
    (WorstFish.search fns stockfish timeLeft r stack0).worstMoves =
      ((m :: rest).filter (fun x =>
        decide (WorstFish.evalOf stockfish timeLeft stack0 (m :: rest).length x =
          WorstFish.evalW stockfish timeLeft stack0 m rest))).map (tagOf fns stack0) ∧
    (WorstFish.search fns stockfish timeLeft r stack0).finalStack = stack0 ∧
    (WorstFish.search fns stockfish timeLeft r stack0).oracleCalls =
      (m :: rest).map (fun x => (x :: stack0, oracleTimeArg timeLeft (m :: rest).length)) ∧
    (WorstFish.search fns stockfish timeLeft r stack0).worstCaptures =
      (WorstFish.search fns stockfish timeLeft r stack0).worstMoves.filter
        (fun t => t.2.1) ∧
    (WorstFish.search fns stockfish timeLeft r stack0).worstChecks =
      (WorstFish.search fns stockfish timeLeft r stack0).worstMoves.filter
        (fun t => !t.2.1 && t.2.2) ∧
    (WorstFish.search fns stockfish timeLeft r stack0).worstOther =
      (WorstFish.search fns stockfish timeLeft r stack0).worstMoves.filter
        (fun t => !t.2.1 && !t.2.2) ∧
    (WorstFish.search fns stockfish timeLeft r stack0).chosen =
      (if (WorstFish.search fns stockfish timeLeft r stack0).worstOther.length ≠ 0 then
        randomChoice (WorstFish.search fns stockfish timeLeft r stack0).worstOther r
      else if (WorstFish.search fns stockfish timeLeft r stack0).worstChecks.length ≠ 0 then
        randomChoice (WorstFish.search fns stockfish timeLeft r stack0).worstChecks r
      else randomChoice (WorstFish.search fns stockfish timeLeft r stack0).worstCaptures r) := by
  have h1 := WorstFish.evalLoop_cons_none fns stockfish
    (searchTimeOf timeLeft (m :: rest).length) stack0 m rest
  simp only [List.length_cons] at h1
  simp [WorstFish.search, hl, h1, WorstFish.categorise_eq, WorstFish.evalW,
    evalOf_eq_stockEval, oracleTimeArg]

theorem WorstFish.worstMoves_ne_nil {M : Type} (fns : BoardFns M)
    (stockfish : List M → ℚ → ℤ) (timeLeft : TimeLeft) (r : ℕ) (stack0 : List M)
    (m : M) (rest : List M) (hl : fns.legal stack0 = m :: rest) :
    (WorstFish.search fns stockfish timeLeft r stack0).worstMoves ≠ [] := by
  obtain ⟨hE, hM, hrest⟩ := WorstFish.search_fields fns stockfish timeLeft r stack0 m rest hl
  have hWmem : ∃ x ∈ m :: rest,
      WorstFish.evalOf stockfish timeLeft stack0 (m :: rest).length x =
        WorstFish.evalW stockfish timeLeft stack0 m rest := by
    rcases runMax_mem (WorstFish.evalOf stockfish timeLeft stack0 (m :: rest).length)
      (WorstFish.evalOf stockfish timeLeft stack0 (m :: rest).length m) rest with h | h
    · exact ⟨m, List.mem_cons_self m rest, h.symm⟩
    · rcases h with ⟨x, hx, hfx⟩
      exact ⟨x, List.mem_cons_of_mem m hx, hfx.symm⟩
  rw [hM]
  intro hnil
  rcases hWmem with ⟨x, hx, hfx⟩
  have hxf : x ∈ (m :: rest).filter (fun x =>
      decide (WorstFish.evalOf stockfish timeLeft stack0 (m :: rest).length x =
        WorstFish.evalW stockfish timeLeft stack0 m rest)) :=
    List.mem_filter.mpr ⟨hx, decide_eq_true hfx⟩
  rw [List.map_eq_nil] at hnil
  rw [hnil] at hxf
  cases hxf

theorem WorstFish.chosen_cases {M : Type} (fns : BoardFns M)
    (stockfish : List M → ℚ → ℤ) (timeLeft : TimeLeft) (r : ℕ) (stack0 : List M)
    (hne : fns.legal stack0 ≠ []) :
    ∃ t, (WorstFish.search fns stockfish timeLeft r stack0).chosen = some t ∧
      t ∈ (WorstFish.search fns stockfish timeLeft r stack0).worstMoves ∧
      (((WorstFish.search fns stockfish timeLeft r stack0).worstOther ≠ [] ∧
          t ∈ (WorstFish.search fns stockfish timeLeft r stack0).worstOther) ∨
       ((WorstFish.search fns stockfish timeLeft r stack0).worstOther = [] ∧
          (WorstFish.search fns stockfish timeLeft r stack0).worstChecks ≠ [] ∧
          t ∈ (WorstFish.search fns stockfish timeLeft r stack0).worstChecks) ∨
       ((WorstFish.search fns stockfish timeLeft r stack0).worstOther = [] ∧
          (WorstFish.search fns stockfish timeLeft r stack0).worstChecks = [] ∧
          t ∈ (WorstFish.search fns stockfish timeLeft r stack0).worstCaptures)) := by
  obtain ⟨m, rest, hl⟩ := List.exists_cons_of_ne_nil hne
  have hmne := WorstFish.worstMoves_ne_nil fns stockfish timeLeft r stack0 m rest hl
  obtain ⟨hE, hM, hS, hC, hcap, hchk, hoth, hch⟩ :=
    WorstFish.search_fields fns stockfish timeLeft r stack0 m rest hl
  rw [hch]
  by_cases h1 : (WorstFish.search fns stockfish timeLeft r stack0).worstOther.length ≠ 0
  · rw [if_pos h1]
    have hne1 : (WorstFish.search fns stockfish timeLeft r stack0).worstOther ≠ [] := by
      intro h
      rw [h] at h1
      exact h1 rfl
    obtain ⟨t, ht⟩ := randomChoice_isSome r hne1
    have htmem := randomChoice_mem ht
    refine ⟨t, ht, ?_, Or.inl ⟨hne1, htmem⟩⟩
    rw [hoth] at htmem
    exact (List.mem_filter.mp htmem).1
  · rw [if_neg h1]
    have hoemp : (WorstFish.search fns stockfish timeLeft r stack0).worstOther = [] :=
      List.length_eq_zero.mp (not_ne_iff.mp h1)
    by_cases h2 : (WorstFish.search fns stockfish timeLeft r stack0).worstChecks.length ≠ 0
    · rw [if_pos h2]
      have hne2 : (WorstFish.search fns stockfish timeLeft r stack0).worstChecks ≠ [] := by
        intro h
        rw [h] at h2
        exact h2 rfl
      obtain ⟨t, ht⟩ := randomChoice_isSome r hne2
      have htmem := randomChoice_mem ht
      refine ⟨t, ht, ?_, Or.inr (Or.inl ⟨hoemp, hne2, htmem⟩)⟩
      rw [hchk] at htmem
      exact (List.mem_filter.mp htmem).1
    · rw [if_neg h2]
      have hcemp : (WorstFish.search fns stockfish timeLeft r stack0).worstChecks = [] :=
        List.length_eq_zero.mp (not_ne_iff.mp h2)
      have hne3 : (WorstFish.search fns stockfish timeLeft r stack0).worstCaptures ≠ [] := by
        cases hcase : (WorstFish.search fns stockfish timeLeft r stack0).worstMoves with
        | nil => exact absurd hcase hmne
        | cons t0 ts =>
          have ht0 : t0 ∈ (WorstFish.search fns stockfish timeLeft r stack0).worstMoves := by
            rw [hcase]
            exact List.mem_cons_self t0 ts
          cases hb1 : t0.2.1 with
          | true =>
            have : t0 ∈ (WorstFish.search fns stockfish timeLeft r stack0).worstCaptures := by
              rw [hcap]
              exact List.mem_filter.mpr ⟨ht0, by rw [hb1]⟩
            intro h
            rw [h] at this
            cases this
          | false =>
            cases hb2 : t0.2.2 with
            | true =>
              have : t0 ∈ (WorstFish.search fns stockfish timeLeft r stack0).worstChecks := by
                rw [hchk]
                exact List.mem_filter.mpr ⟨ht0, by rw [hb1, hb2]; rfl⟩
              rw [hcemp] at this
              cases this
            | false =>
              have : t0 ∈ (WorstFish.search fns stockfish timeLeft r stack0).worstOther := by
                rw [hoth]
                exact List.mem_filter.mpr ⟨ht0, by rw [hb1, hb2]; rfl⟩
              rw [hoemp] at this
              cases this
      obtain ⟨t, ht⟩ := randomChoice_isSome r hne3
      have htmem := randomChoice_mem ht
      refine ⟨t, ht, ?_, Or.inr (Or.inr ⟨hoemp, hcemp, htmem⟩)⟩
      rw [hcap] at htmem
      exact (List.mem_filter.mp htmem).1

theorem insertionSort_head_mem {M : Type} (r : M → M → Prop) [DecidableRel r] (l : List M)
    (h : l ≠ []) : ∃ m, (l.insertionSort r).head? = some m ∧ m ∈ l := by
  have hperm := List.perm_insertionSort r l
  cases hs : l.insertionSort r with
  | nil =>
    rw [hs] at hperm
    exact absurd hperm.symm.eq_nil h
  | cons a t =>
    refine ⟨a, rfl, ?_⟩
    have ha : a ∈ l.insertionSort r := by
      rw [hs]
      exact List.mem_cons_self a t
    exact hperm.mem_iff.mp ha

theorem WorstFish.mem_worstMoves_fst {M : Type} (fns : BoardFns M)
    (stockfish : List M → ℚ → ℤ) (timeLeft : TimeLeft) (r : ℕ) (stack0 : List M)
    (m : M) (rest : List M) (hl : fns.legal stack0 = m :: rest)
    {t : M × Bool × Bool}
    (ht : t ∈ (WorstFish.search fns stockfish timeLeft r stack0).worstMoves) :
    t.1 ∈ fns.legal stack0 := by
  obtain ⟨hE, hM, hrest⟩ := WorstFish.search_fields fns stockfish timeLeft r stack0 m rest hl
  rw [hM] at ht
  rcases List.mem_map.mp ht with ⟨x, hx, hxt⟩
  have hxl : x ∈ m :: rest := (List.mem_filter.mp hx).1
  rw [← hxt, hl]
  exact hxl

/-- C1: for every concrete policy (RandomMove, Alphabetical, FirstMove,
WorstFish) and every board whose legal-move set is non-empty, the move
returned by `search` is a member of that board's legal-move set. -/
theorem claim1_search_returns_legal_move {M : Type} :
    (∀ (legalMoves : List M) (r : ℕ), legalMoves ≠ [] →
      ∃ mv, RandomMove.search legalMoves r = some mv ∧ mv ∈ legalMoves) ∧
    (∀ (san : M → String) (legalMoves : List M), legalMoves ≠ [] →
      ∃ mv, Alphabetical.search san legalMoves = some mv ∧ mv ∈ legalMoves) ∧
    (∀ (uci : M → String) (legalMoves : List M), legalMoves ≠ [] →
      ∃ mv, FirstMove.search uci legalMoves = some mv ∧ mv ∈ legalMoves) ∧
    (∀ (fns : BoardFns M) (stockfish : List M → ℚ → ℤ) (timeLeft : TimeLeft) (r : ℕ)
        (stack0 : List M), fns.legal stack0 ≠ [] →
      ∃ t, (WorstFish.search fns stockfish timeLeft r stack0).chosen = some t ∧
        t.1 ∈ fns.legal stack0) := by
  refine ⟨?_, ?_, ?_, ?_⟩
  · intro legalMoves r h
    obtain ⟨mv, hmv⟩ := randomChoice_isSome r h
    exact ⟨mv, hmv, randomChoice_mem hmv⟩
  · intro san legalMoves h
    obtain ⟨mv, hmv, hmem⟩ := insertionSort_head_mem (fun a b => san a ≤ san b) legalMoves h
    exact ⟨mv, hmv, hmem⟩
  · intro uci legalMoves h
    obtain ⟨mv, hmv, hmem⟩ := insertionSort_head_mem (fun a b => uci a ≤ uci b) legalMoves h
    exact ⟨mv, hmv, hmem⟩
  · intro fns stockfish timeLeft r stack0 h
    obtain ⟨m, rest, hl⟩ := List.exists_cons_of_ne_nil h
    obtain ⟨t, hch, hmem, hrest⟩ :=
      WorstFish.chosen_cases fns stockfish timeLeft r stack0 h
    exact ⟨t, hch, WorstFish.mem_worstMoves_fst fns stockfish timeLeft r stack0 m rest hl hmem⟩

/-- Witness for C1 at concrete inputs: the one-legal-move board `exFns`. -/
theorem claim1_witness :
    (∃ mv, RandomMove.search [0] 0 = some mv ∧ mv ∈ [0]) ∧
    (∃ mv, Alphabetical.search (fun n => toString n) [0] = some mv ∧ mv ∈ [0]) ∧
    (∃ mv, FirstMove.search (fun n => toString n) [0] = some mv ∧ mv ∈ [0]) ∧
    (∃ t, (WorstFish.search exFns exSf TimeLeft.limit 0 []).chosen = some t ∧
      t.1 ∈ exFns.legal []) :=
  ⟨claim1_search_returns_legal_move.1 [0] 0 (by decide),
   claim1_search_returns_legal_move.2.1 (fun n => toString n) [0] (by decide),
   claim1_search_returns_legal_move.2.2.1 (fun n => toString n) [0] (by decide),
   claim1_search_returns_legal_move.2.2.2 exFns exSf TimeLeft.limit 0 [] (by decide)⟩

/-- C3: in `WorstFish.search`, after the evaluation loop, `worstEvaluation`
equals the maximum oracle evaluation over all legal moves, and `worstMoves`
is exactly the (tagged) list of legal moves whose evaluation equals that
maximum — every tie included, no non-maximal move included. -/
theorem claim3_worst_evaluation_is_max {M : Type} (fns : BoardFns M)
    (stockfish : List M → ℚ → ℤ) (timeLeft : TimeLeft) (r : ℕ) (stack0 : List M)
    (hne : fns.legal stack0 ≠ []) :
    ∃ W : ℤ,
      (WorstFish.search fns stockfish timeLeft r stack0).worstEvaluation = some W ∧
      (∀ x ∈ fns.legal stack0,
        WorstFish.evalOf stockfish timeLeft stack0 (fns.legal stack0).length x ≤ W) ∧
      (∃ x ∈ fns.legal stack0,
        WorstFish.evalOf stockfish timeLeft stack0 (fns.legal stack0).length x = W) ∧
      (WorstFish.search fns stockfish timeLeft r stack0).worstMoves =
        ((fns.legal stack0).filter (fun x =>
          decide (WorstFish.evalOf stockfish timeLeft stack0 (fns.legal stack0).length x =
            W))).map (tagOf fns stack0) := by
  obtain ⟨m, rest, hl⟩ := List.exists_cons_of_ne_nil hne
  obtain ⟨hE, hM, hrest⟩ := WorstFish.search_fields fns stockfish timeLeft r stack0 m rest hl
  rw [hl]
  refine ⟨WorstFish.evalW stockfish timeLeft stack0 m rest, hE, ?_, ?_, hM⟩
  · intro x hx
    have hWdef : WorstFish.evalW stockfish timeLeft stack0 m rest =
        runMax (WorstFish.evalOf stockfish timeLeft stack0 (m :: rest).length)
          (WorstFish.evalOf stockfish timeLeft stack0 (m :: rest).length m) rest := rfl
    rw [hWdef]
    rcases List.mem_cons.mp hx with h | h
    · rw [h]
      exact le_runMax _ _ _
    · exact runMax_bound _ _ _ x h
  · rcases runMax_mem (WorstFish.evalOf stockfish timeLeft stack0 (m :: rest).length)
      (WorstFish.evalOf stockfish timeLeft stack0 (m :: rest).length m) rest with h | h
    · exact ⟨m, List.mem_cons_self m rest, h.symm⟩
    · rcases h with ⟨x, hx, hfx⟩
      exact ⟨x, List.mem_cons_of_mem m hx, hfx.symm⟩

/-- Witness for C3 at the concrete board `exFns`. -/
theorem claim3_witness :
    ∃ W : ℤ,
      (WorstFish.search exFns exSf TimeLeft.limit 0 []).worstEvaluation = some W ∧
      (∀ x ∈ exFns.legal [],
        WorstFish.evalOf exSf TimeLeft.limit [] (exFns.legal []).length x ≤ W) ∧
      (∃ x ∈ exFns.legal [],
        WorstFish.evalOf exSf TimeLeft.limit [] (exFns.legal []).length x = W) ∧
      (WorstFish.search exFns exSf TimeLeft.limit 0 []).worstMoves =
        ((exFns.legal []).filter (fun x =>
          decide (WorstFish.evalOf exSf TimeLeft.limit [] (exFns.legal []).length x =
            W))).map (tagOf exFns []) :=
  claim3_worst_evaluation_is_max exFns exSf TimeLeft.limit 0 [] (by decide)

/-- C7: for every board with a non-empty legal-move set, `WorstFish.search`
pairs every push with exactly one pop, so on return the board is restored:
the stack, hence the legal-move set and the side to move, are those of the
pre-call board. -/
theorem claim7_board_restored {M : Type} (fns : BoardFns M)
    (stockfish : List M → ℚ → ℤ) (timeLeft : TimeLeft) (r : ℕ) (stack0 : List M)
    (hne : fns.legal stack0 ≠ []) :
    (WorstFish.search fns stockfish timeLeft r stack0).finalStack = stack0 ∧
    fns.legal (WorstFish.search fns stockfish timeLeft r stack0).finalStack =
      fns.legal stack0 ∧
    fns.turn (WorstFish.search fns stockfish timeLeft r stack0).finalStack =
      fns.turn stack0 := by
  obtain ⟨m, rest, hl⟩ := List.exists_cons_of_ne_nil hne
  obtain ⟨hE, hM, hS, hrest⟩ := WorstFish.search_fields fns stockfish timeLeft r stack0 m rest hl
  exact ⟨hS, by rw [hS], by rw [hS]⟩

/-- Witness for C7 at the concrete board `exFns`. -/
theorem claim7_witness :
    (WorstFish.search exFns exSf TimeLeft.limit 0 []).finalStack = [] ∧
    exFns.legal (WorstFish.search exFns exSf TimeLeft.limit 0 []).finalStack =
      exFns.legal [] ∧
    exFns.turn (WorstFish.search exFns exSf TimeLeft.limit 0 []).finalStack =
      exFns.turn [] :=
  claim7_board_restored exFns exSf TimeLeft.limit 0 [] (by decide)

/-- C10: with a non-empty legal-move list, `worstMoves` is non-empty, each of
its members lies in exactly one of `worstCaptures`, `worstChecks`,
`worstOther`, and the final `random.choice` is applied to a non-empty list,
so the selection never fails. -/
theorem claim10_partition_and_choice_total {M : Type} (fns : BoardFns M)
    (stockfish : List M → ℚ → ℤ) (timeLeft : TimeLeft) (r : ℕ) (stack0 : List M)
    (hne : fns.legal stack0 ≠ []) :
    (WorstFish.search fns stockfish timeLeft r stack0).worstMoves ≠ [] ∧
    (∀ t ∈ (WorstFish.search fns stockfish timeLeft r stack0).worstMoves,
      (t ∈ (WorstFish.search fns stockfish timeLeft r stack0).worstCaptures ∧
        t ∉ (WorstFish.search fns stockfish timeLeft r stack0).worstChecks ∧
        t ∉ (WorstFish.search fns stockfish timeLeft r stack0).worstOther) ∨
      (t ∉ (WorstFish.search fns stockfish timeLeft r stack0).worstCaptures ∧
        t ∈ (WorstFish.search fns stockfish timeLeft r stack0).worstChecks ∧
        t ∉ (WorstFish.search fns stockfish timeLeft r stack0).worstOther) ∨
      (t ∉ (WorstFish.search fns stockfish timeLeft r stack0).worstCaptures ∧
        t ∉ (WorstFish.search fns stockfish timeLeft r stack0).worstChecks ∧
        t ∈ (WorstFish.search fns stockfish timeLeft r stack0).worstOther)) ∧
    (∃ t, (WorstFish.search fns stockfish timeLeft r stack0).chosen = some t) := by
  obtain ⟨m, rest, hl⟩ := List.exists_cons_of_ne_nil hne
  obtain ⟨hE, hM, hS, hC, hcap, hchk, hoth, hch⟩ :=
    WorstFish.search_fields fns stockfish timeLeft r stack0 m rest hl
  refine ⟨WorstFish.worstMoves_ne_nil fns stockfish timeLeft r stack0 m rest hl, ?_, ?_⟩
  · intro t ht
    cases hb1 : t.2.1 with
    | true =>
      refine Or.inl ⟨?_, ?_, ?_⟩
      · rw [hcap]
        exact List.mem_filter.mpr ⟨ht, by rw [hb1]⟩
      · intro hmem
        rw [hchk] at hmem
        have := (List.mem_filter.mp hmem).2
        rw [hb1] at this
        simp at this
      · intro hmem
        rw [hoth] at hmem
        have := (List.mem_filter.mp hmem).2
        rw [hb1] at this
        simp at this
    | false =>
      cases hb2 : t.2.2 with
      | true =>
        refine Or.inr (Or.inl ⟨?_, ?_, ?_⟩)
        · intro hmem
          rw [hcap] at hmem
          have := (List.mem_filter.mp hmem).2
          rw [hb1] at this
          simp at this
        · rw [hchk]
          exact List.mem_filter.mpr ⟨ht, by rw [hb1, hb2]; rfl⟩
        · intro hmem
          rw [hoth] at hmem
          have := (List.mem_filter.mp hmem).2
          rw [hb1, hb2] at this
          simp at this
      | false =>
        refine Or.inr (Or.inr ⟨?_, ?_, ?_⟩)
        · intro hmem
          rw [hcap] at hmem
          have := (List.mem_filter.mp hmem).2
          rw [hb1] at this
          simp at this
        · intro hmem
          rw [hchk] at hmem
          have := (List.mem_filter.mp hmem).2
          rw [hb1, hb2] at this
          simp at this
        · rw [hoth]
          exact List.mem_filter.mpr ⟨ht, by rw [hb1, hb2]; rfl⟩
  · obtain ⟨t, hcho, hrest2⟩ := WorstFish.chosen_cases fns stockfish timeLeft r stack0 hne
    exact ⟨t, hcho⟩

/-- Witness for C10 at the concrete board `exFns`. -/
theorem claim10_witness :
    (WorstFish.search exFns exSf TimeLeft.limit 0 []).worstMoves ≠ [] ∧
    (∀ t ∈ (WorstFish.search exFns exSf TimeLeft.limit 0 []).worstMoves,
      (t ∈ (WorstFish.search exFns exSf TimeLeft.limit 0 []).worstCaptures ∧
        t ∉ (WorstFish.search exFns exSf TimeLeft.limit 0 []).worstChecks ∧
        t ∉ (WorstFish.search exFns exSf TimeLeft.limit 0 []).worstOther) ∨
      (t ∉ (WorstFish.search exFns exSf TimeLeft.limit 0 []).worstCaptures ∧
        t ∈ (WorstFish.search exFns exSf TimeLeft.limit 0 []).worstChecks ∧
        t ∉ (WorstFish.search exFns exSf TimeLeft.limit 0 []).worstOther) ∨
      (t ∉ (WorstFish.search exFns exSf TimeLeft.limit 0 []).worstCaptures ∧
        t ∉ (WorstFish.search exFns exSf TimeLeft.limit 0 []).worstChecks ∧
        t ∈ (WorstFish.search exFns exSf TimeLeft.limit 0 []).worstOther)) ∧
    (∃ t, (WorstFish.search exFns exSf TimeLeft.limit 0 []).chosen = some t) :=
  claim10_partition_and_choice_total exFns exSf TimeLeft.limit 0 [] (by decide)

theorem WorstFish.search_random_independent {M : Type} (fns : BoardFns M)
    (stockfish : List M → ℚ → ℤ) (timeLeft : TimeLeft) (stack0 : List M) (r i : ℕ) :
    (WorstFish.search fns stockfish timeLeft r stack0).worstMoves =
      (WorstFish.search fns stockfish timeLeft i stack0).worstMoves ∧
    (WorstFish.search fns stockfish timeLeft r stack0).worstCaptures =
      (WorstFish.search fns stockfish timeLeft i stack0).worstCaptures ∧
    (WorstFish.search fns stockfish timeLeft r stack0).worstChecks =
      (WorstFish.search fns stockfish timeLeft i stack0).worstChecks ∧
    (WorstFish.search fns stockfish timeLeft r stack0).worstOther =
      (WorstFish.search fns stockfish timeLeft i stack0).worstOther :=
  ⟨rfl, rfl, rfl, rfl⟩

/-- C4 (amended): `WorstFish.search` resolves ties by fixed category
preference over the categories the code builds — quiet moves (neither capture
nor check), then checks that are not captures, then captures (a move that is
both a capture and a check counts as a capture).  If any tied move is quiet,
the returned move is quiet; otherwise, if any tied move is a check that is
not a capture, the returned move is such a move; otherwise every tied move is
a capture and the returned move is a capture.  A capture is returned only
when every tied move is a capture; within the selected category any member
can be returned (the choice is a uniform `random.choice`). -/
theorem claim4_tiebreak_categories {M : Type} (fns : BoardFns M)
    (stockfish : List M → ℚ → ℤ) (timeLeft : TimeLeft) (r : ℕ) (stack0 : List M)
    (hne : fns.legal stack0 ≠ []) :
    ((∃ t ∈ (WorstFish.search fns stockfish timeLeft r stack0).worstMoves,
        t.2.1 = false ∧ t.2.2 = false) →
      ∃ t, (WorstFish.search fns stockfish timeLeft r stack0).chosen = some t ∧
        t ∈ (WorstFish.search fns stockfish timeLeft r stack0).worstMoves ∧
        t.2.1 = false ∧ t.2.2 = false) ∧
    ((∀ t ∈ (WorstFish.search fns stockfish timeLeft r stack0).worstMoves,
        t.2.1 = true ∨ t.2.2 = true) →
      (∃ t ∈ (WorstFish.search fns stockfish timeLeft r stack0).worstMoves,
        t.2.1 = false ∧ t.2.2 = true) →
      ∃ t, (WorstFish.search fns stockfish timeLeft r stack0).chosen = some t ∧
        t ∈ (WorstFish.search fns stockfish timeLeft r stack0).worstMoves ∧
        t.2.1 = false ∧ t.2.2 = true) ∧
    ((∀ t ∈ (WorstFish.search fns stockfish timeLeft r stack0).worstMoves,
        t.2.1 = true) →
      ∃ t, (WorstFish.search fns stockfish timeLeft r stack0).chosen = some t ∧
        t ∈ (WorstFish.search fns stockfish timeLeft r stack0).worstMoves ∧
        t.2.1 = true) ∧
    (∀ t, (WorstFish.search fns stockfish timeLeft r stack0).chosen = some t →
      t.2.1 = true →
      ∀ s ∈ (WorstFish.search fns stockfish timeLeft r stack0).worstMoves,
        s.2.1 = true) ∧
    (∀ t ∈ (WorstFish.search fns stockfish timeLeft r stack0).worstOther,
      ∃ i, (WorstFish.search fns stockfish timeLeft i stack0).chosen = some t) ∧
    ((WorstFish.search fns stockfish timeLeft r stack0).worstOther = [] →
      ∀ t ∈ (WorstFish.search fns stockfish timeLeft r stack0).worstChecks,
        ∃ i, (WorstFish.search fns stockfish timeLeft i stack0).chosen = some t) ∧
    ((WorstFish.search fns stockfish timeLeft r stack0).worstOther = [] →
      (WorstFish.search fns stockfish timeLeft r stack0).worstChecks = [] →
      ∀ t ∈ (WorstFish.search fns stockfish timeLeft r stack0).worstCaptures,
        ∃ i, (WorstFish.search fns stockfish timeLeft i stack0).chosen = some t) := by
  obtain ⟨m, rest, hl⟩ := List.exists_cons_of_ne_nil hne
  obtain ⟨hE, hM, hS, hC, hcap, hchk, hoth, hch⟩ :=
    WorstFish.search_fields fns stockfish timeLeft r stack0 m rest hl
  refine ⟨?_, ?_, ?_, ?_, ?_, ?_, ?_⟩
  · -- a quiet tied move exists: the returned move is quiet
    rintro ⟨t0, ht0, hq1, hq2⟩
    have hothne : (WorstFish.search fns stockfish timeLeft r stack0).worstOther ≠ [] := by
      intro hnil
      have : t0 ∈ (WorstFish.search fns stockfish timeLeft r stack0).worstOther := by
        rw [hoth]
        exact List.mem_filter.mpr ⟨ht0, by rw [hq1, hq2]; rfl⟩
      rw [hnil] at this
      cases this
    obtain ⟨t, hcho, hmem, hcase⟩ :=
      WorstFish.chosen_cases fns stockfish timeLeft r stack0 hne
    rcases hcase with ⟨_, htoth⟩ | ⟨hoemp, _⟩ | ⟨hoemp, _⟩
    · rw [hoth] at htoth
      have hp := (List.mem_filter.mp htoth).2
      refine ⟨t, hcho, hmem, ?_, ?_⟩
      · cases hb : t.2.1 with
        | true => rw [hb] at hp; simp at hp
        | false => rfl
      · cases hb : t.2.2 with
        | true =>
          rw [hb] at hp
          simp at hp
        | false => rfl
    · exact absurd hoemp hothne
    · exact absurd hoemp hothne
  · -- no quiet tie, a non-capture check exists: the returned move is one
    intro hnoq
    rintro ⟨t0, ht0, hq1, hq2⟩
    have hoemp0 : (WorstFish.search fns stockfish timeLeft r stack0).worstOther = [] := by
      rw [hoth]
      refine List.filter_eq_nil.mpr ?_
      intro a ha
      rcases hnoq a ha with h | h
      · rw [h]
        simp
      · rw [h]
        simp
    have hchkne : (WorstFish.search fns stockfish timeLeft r stack0).worstChecks ≠ [] := by
      intro hnil
      have : t0 ∈ (WorstFish.search fns stockfish timeLeft r stack0).worstChecks := by
        rw [hchk]
        exact List.mem_filter.mpr ⟨ht0, by rw [hq1, hq2]; rfl⟩
      rw [hnil] at this
      cases this
    obtain ⟨t, hcho, hmem, hcase⟩ :=
      WorstFish.chosen_cases fns stockfish timeLeft r stack0 hne
    rcases hcase with ⟨hone, _⟩ | ⟨_, _, htchk⟩ | ⟨_, hcemp, _⟩
    · exact absurd hoemp0 hone
    · rw [hchk] at htchk
      have hp := (List.mem_filter.mp htchk).2
      refine ⟨t, hcho, hmem, ?_, ?_⟩
      · cases hb : t.2.1 with
        | true => rw [hb] at hp; simp at hp
        | false => rfl
      · cases hb : t.2.2 with
        | true => rfl
        | false => rw [hb] at hp; simp at hp
    · exact absurd hcemp hchkne
  · -- every tied move is a capture: the returned move is a capture
    intro hallcap
    obtain ⟨t, hcho, hmem, hcase⟩ :=
      WorstFish.chosen_cases fns stockfish timeLeft r stack0 hne
    exact ⟨t, hcho, hmem, hallcap t hmem⟩
  · -- a capture is returned only when every tied move is a capture
    intro t hcho hcapt s hs
    obtain ⟨t2, hcho2, hmem2, hcase⟩ :=
      WorstFish.chosen_cases fns stockfish timeLeft r stack0 hne
    rw [hcho] at hcho2
    have ht2 : t2 = t := by
      injection hcho2.symm
    subst ht2
    rcases hcase with ⟨_, htoth⟩ | ⟨_, _, htchk⟩ | ⟨hoemp, hcemp, _⟩
    · rw [hoth] at htoth
      have hp := (List.mem_filter.mp htoth).2
      rw [hcapt] at hp
      simp at hp
    · rw [hchk] at htchk
      have hp := (List.mem_filter.mp htchk).2
      rw [hcapt] at hp
      simp at hp
    · by_contra hscap
      have hs1 : s.2.1 = false := by
        cases hb : s.2.1 with
        | true => exact absurd hb hscap
        | false => rfl
      cases hb2 : s.2.2 with
      | true =>
        have : s ∈ (WorstFish.search fns stockfish timeLeft r stack0).worstChecks := by
          rw [hchk]
          exact List.mem_filter.mpr ⟨hs, by rw [hs1, hb2]; rfl⟩
        rw [hcemp] at this
        cases this
      | false =>
        have : s ∈ (WorstFish.search fns stockfish timeLeft r stack0).worstOther := by
          rw [hoth]
          exact List.mem_filter.mpr ⟨hs, by rw [hs1, hb2]; rfl⟩
        rw [hoemp] at this
        cases this
  · -- any quiet tied move can be returned for a suitable random draw
    intro t ht
    obtain ⟨i, hi⟩ := randomChoice_surj ht
    obtain ⟨hEi, hMi, hSi, hCi, hcapi, hchki, hothi, hchi⟩ :=
      WorstFish.search_fields fns stockfish timeLeft i stack0 m rest hl
    have hoeq : (WorstFish.search fns stockfish timeLeft i stack0).worstOther =
        (WorstFish.search fns stockfish timeLeft r stack0).worstOther :=
      (WorstFish.search_random_independent fns stockfish timeLeft stack0 i r).2.2.2
    refine ⟨i, ?_⟩
    rw [hchi]
    have hlen : (WorstFish.search fns stockfish timeLeft i stack0).worstOther.length ≠ 0 := by
      rw [hoeq]
      intro h0
      have := List.length_eq_zero.mp h0
      rw [this] at ht
      cases ht
    rw [if_pos hlen, hoeq]
    exact hi
  · -- with no quiet tie, any tied non-capture check can be returned
    intro hoemp t ht
    obtain ⟨i, hi⟩ := randomChoice_surj ht
    obtain ⟨hEi, hMi, hSi, hCi, hcapi, hchki, hothi, hchi⟩ :=
      WorstFish.search_fields fns stockfish timeLeft i stack0 m rest hl
    have hoeq : (WorstFish.search fns stockfish timeLeft i stack0).worstOther =
        (WorstFish.search fns stockfish timeLeft r stack0).worstOther :=
      (WorstFish.search_random_independent fns stockfish timeLeft stack0 i r).2.2.2
    have hceq : (WorstFish.search fns stockfish timeLeft i stack0).worstChecks =
        (WorstFish.search fns stockfish timeLeft r stack0).worstChecks :=
      (WorstFish.search_random_independent fns stockfish timeLeft stack0 i r).2.2.1
    refine ⟨i, ?_⟩
    rw [hchi]
    have hlen0 : ¬ ((WorstFish.search fns stockfish timeLeft i stack0).worstOther.length ≠ 0) := by
      rw [hoeq, hoemp]
      simp
    have hlen1 : (WorstFish.search fns stockfish timeLeft i stack0).worstChecks.length ≠ 0 := by
      rw [hceq]
      intro h0
      have := List.length_eq_zero.mp h0
      rw [this] at ht
      cases ht
    rw [if_neg hlen0, if_pos hlen1, hceq]
    exact hi
  · -- with only captures tied, any tied capture can be returned
    intro hoemp hcemp t ht
    obtain ⟨i, hi⟩ := randomChoice_surj ht
    obtain ⟨hEi, hMi, hSi, hCi, hcapi, hchki, hothi, hchi⟩ :=
      WorstFish.search_fields fns stockfish timeLeft i stack0 m rest hl
    have hoeq : (WorstFish.search fns stockfish timeLeft i stack0).worstOther =
        (WorstFish.search fns stockfish timeLeft r stack0).worstOther :=
      (WorstFish.search_random_independent fns stockfish timeLeft stack0 i r).2.2.2
    have hceq : (WorstFish.search fns stockfish timeLeft i stack0).worstChecks =
        (WorstFish.search fns stockfish timeLeft r stack0).worstChecks :=
      (WorstFish.search_random_independent fns stockfish timeLeft stack0 i r).2.2.1
    have hcapeq : (WorstFish.search fns stockfish timeLeft i stack0).worstCaptures =
        (WorstFish.search fns stockfish timeLeft r stack0).worstCaptures :=
      (WorstFish.search_random_independent fns stockfish timeLeft stack0 i r).2.1
    refine ⟨i, ?_⟩
    rw [hchi]
    have hlen0 : ¬ ((WorstFish.search fns stockfish timeLeft i stack0).worstOther.length ≠ 0) := by
      rw [hoeq, hoemp]
      simp
    have hlen1 : ¬ ((WorstFish.search fns stockfish timeLeft i stack0).worstChecks.length ≠ 0) := by
      rw [hceq, hcemp]
      simp
    rw [if_neg hlen0, if_neg hlen1, hcapeq]
    exact hi

/-- Witness for C4 (amended) at the board `exFnsC4`: every tied move is a
capture, and a capture is returned. -/
theorem claim4_witness :
    ∃ t, (WorstFish.search exFnsC4 exSfC4 TimeLeft.limit 1 []).chosen = some t ∧
      t ∈ (WorstFish.search exFnsC4 exSfC4 TimeLeft.limit 1 []).worstMoves ∧
      t.2.1 = true :=
  (claim4_tiebreak_categories exFnsC4 exSfC4 TimeLeft.limit 1 [] (by decide)).2.2.1
    (by decide)

/-- Counterexample to C4 as stated: on the board `exFnsC4` both legal moves
tie at the maximal evaluation; move `0` is a capture that also gives check,
move `1` a capture that does not.  No tied move is quiet, some tied move is a
check, yet the returned move `(1, true, false)` is not a check — the claim's
clause "if any tied move is a check, the returned move is a check" fails,
because a capture-and-check move is categorised as a capture. -/
theorem claim4_counterexample :
    (∀ t ∈ (WorstFish.search exFnsC4 exSfC4 TimeLeft.limit 1 []).worstMoves,
        t.2.1 = true ∨ t.2.2 = true) ∧
    (∃ t ∈ (WorstFish.search exFnsC4 exSfC4 TimeLeft.limit 1 []).worstMoves,
        t.2.2 = true) ∧
    (WorstFish.search exFnsC4 exSfC4 TimeLeft.limit 1 []).chosen =
      some (1, true, false) ∧
    ((1 : ℕ), true, false).2.2 = false := by
  decide

theorem WorstFish.search_nil_oracleCalls {M : Type} (fns : BoardFns M)
    (stockfish : List M → ℚ → ℤ) (timeLeft : TimeLeft) (r : ℕ) (stack0 : List M)
    (hl : fns.legal stack0 = []) :
    (WorstFish.search fns stockfish timeLeft r stack0).oracleCalls = [] := by
  simp [WorstFish.search, hl, WorstFish.evalLoop]

/-- C5 (amended): every oracle query made by `WorstFish.search` receives the
time limit `searchTime - 0.01`.  In fixed-limit mode this equals `0.09` and is
strictly positive; in clock mode it is strictly positive exactly when the
remaining milliseconds exceed `100 × candidateCount`.  The code performs no
clamping, so at or below that threshold the oracle is queried with a
non-positive time limit. -/
theorem claim5_amended :
    (∀ (M : Type) (fns : BoardFns M) (stockfish : List M → ℚ → ℤ)
        (timeLeft : TimeLeft) (r : ℕ) (stack0 : List M),
      ∀ c ∈ (WorstFish.search fns stockfish timeLeft r stack0).oracleCalls,
        c.2 = oracleTimeArg timeLeft (fns.legal stack0).length) ∧
    (∀ n : ℕ, oracleTimeArg TimeLeft.limit n = 9/100 ∧
      0 < oracleTimeArg TimeLeft.limit n) ∧
    (∀ (ms : ℚ) (n : ℕ), 0 < n →
      (0 < oracleTimeArg (TimeLeft.clock ms) n ↔ 100 * (n : ℚ) < ms)) := by
  refine ⟨?_, ?_, ?_⟩
  · intro M fns stockfish timeLeft r stack0 c hc
    cases hcase : fns.legal stack0 with
    | nil =>
      rw [WorstFish.search_nil_oracleCalls fns stockfish timeLeft r stack0 hcase] at hc
      cases hc
    | cons m rest =>
      obtain ⟨hE, hM, hS, hC, hrest⟩ :=
        WorstFish.search_fields fns stockfish timeLeft r stack0 m rest hcase
      rw [hC] at hc
      rcases List.mem_map.mp hc with ⟨x, hx, hxc⟩
      rw [← hxc]
  · intro n
    norm_num [oracleTimeArg, searchTimeOf]
  · intro ms n hn
    have hq : (0 : ℚ) < (n : ℚ) := by exact_mod_cast hn
    simp only [oracleTimeArg, searchTimeOf]
    by_cases hc : (n : ℚ) * (1/10) > (ms/1000)/10
    · rw [if_pos hc]
      rw [sub_pos, div_div, div_div, lt_div_iff (by positivity)]
      constructor
      · intro h
        linarith
      · intro h
        linarith
    · rw [if_neg hc]
      have hle : (ms/1000)/10 ≥ (n : ℚ) * (1/10) := not_lt.mp hc
      constructor
      · intro _
        linarith
      · intro _
        norm_num

/-- Counterexample to C5 as stated: on a board with one legal move and 100 ms
remaining on the clock, `searchTime` shrinks to `0.01` and the oracle is
queried with `0.01 - 0.01 = 0`, which is not strictly positive — no clamping
takes place. -/
theorem claim5_counterexample :
    ¬ (∀ c ∈ (WorstFish.search exFns exSf (TimeLeft.clock 100) 0 []).oracleCalls,
        (0 : ℚ) < c.2) := by
  intro h
  have hl : exFns.legal [] = [0] := rfl
  obtain ⟨hE, hM, hS, hC, hrest⟩ :=
    WorstFish.search_fields exFns exSf (TimeLeft.clock 100) 0 [] 0 [] hl
  have hc0 : (((0 : ℕ) :: [], oracleTimeArg (TimeLeft.clock 100) 1) :
      List ℕ × ℚ) ∈ (WorstFish.search exFns exSf (TimeLeft.clock 100) 0 []).oracleCalls := by
    rw [hC]
    simp
  have hpos := h _ hc0
  have hzero : oracleTimeArg (TimeLeft.clock 100) 1 = 0 := by
    norm_num [oracleTimeArg, searchTimeOf]
  rw [hzero] at hpos
  exact lt_irrefl 0 hpos

/-- Witness for C5 (amended) at concrete inputs. -/
theorem claim5_witness :
    (((0 : ℕ) :: [], oracleTimeArg TimeLeft.limit 1) : List ℕ × ℚ).2 =
      oracleTimeArg TimeLeft.limit (exFns.legal []).length ∧
    (0 < oracleTimeArg (TimeLeft.clock 200) 1 ↔ 100 * ((1 : ℕ) : ℚ) < 200) := by
  constructor
  · refine claim5_amended.1 ℕ exFns exSf TimeLeft.limit 0 []
      (((0 : ℕ) :: [], oracleTimeArg TimeLeft.limit 1) : List ℕ × ℚ) ?_
    have hl : exFns.legal [] = [0] := rfl
    obtain ⟨hE, hM, hS, hC, hrest⟩ :=
      WorstFish.search_fields exFns exSf TimeLeft.limit 0 [] 0 [] hl
    rw [hC]
    simp
  · exact claim5_amended.2.2 200 1 (by decide)

/-- C6: for a fixed candidate count, the per-candidate search time in clock
mode is monotone non-decreasing in the remaining time; the shrink branch
(replacing the base `0.1` by `(remainingTime/10)/candidateCount`, remaining
time in seconds) is taken exactly when `candidateCount × 0.1` exceeds
`remainingTime/10`; in fixed-limit mode the base `0.1` is used unchanged. -/
theorem claim6_budget_monotone (n : ℕ) (hn : 0 < n) :
    (∀ t u : ℚ, t ≤ u →
      searchTimeOf (TimeLeft.clock t) n ≤ searchTimeOf (TimeLeft.clock u) n) ∧
    (∀ ms : ℚ,
      ((n : ℚ) * (1/10) > (ms/1000)/10 →
        searchTimeOf (TimeLeft.clock ms) n = ((ms/1000)/10)/(n : ℚ)) ∧
      (searchTimeOf (TimeLeft.clock ms) n < 1/10 ↔
        (n : ℚ) * (1/10) > (ms/1000)/10)) ∧
    searchTimeOf TimeLeft.limit n = 1/10 := by
  have hq : (0 : ℚ) < (n : ℚ) := by exact_mod_cast hn
  refine ⟨?_, ?_, rfl⟩
  · intro t u htu
    simp only [searchTimeOf]
    by_cases hct : (n : ℚ) * (1/10) > (t/1000)/10
    · by_cases hcu : (n : ℚ) * (1/10) > (u/1000)/10
      · rw [if_pos hct, if_pos hcu]
        gcongr
      · rw [if_pos hct, if_neg hcu]
        rw [div_le_iff hq]
        linarith
    · have hcu : ¬ ((n : ℚ) * (1/10) > (u/1000)/10) := by
        intro hgt
        apply hct
        have hmono : (t/1000)/10 ≤ (u/1000)/10 := by linarith
        linarith
      rw [if_neg hct, if_neg hcu]
  · intro ms
    constructor
    · intro h
      simp only [searchTimeOf]
      rw [if_pos h]
    · simp only [searchTimeOf]
      by_cases hc : (n : ℚ) * (1/10) > (ms/1000)/10
      · rw [if_pos hc]
        constructor
        · intro _
          exact hc
        · intro _
          rw [div_lt_iff hq]
          linarith
      · rw [if_neg hc]
        constructor
        · intro h
          exact absurd h (lt_irrefl _)
        · intro h
          exact absurd h hc

/-- Witness for C6 at concrete inputs. -/
theorem claim6_witness :
    searchTimeOf (TimeLeft.clock 50) 1 ≤ searchTimeOf (TimeLeft.clock 60) 1 ∧
    searchTimeOf TimeLeft.limit 1 = 1/10 :=
  ⟨(claim6_budget_monotone 1 (by decide)).1 50 60 (by norm_num),
   (claim6_budget_monotone 1 (by decide)).2.2⟩

/-- C8: `MinimalEngine.search_with_ponder` delegates to `search` with `wtime`
when white is to move and `btime` when black is to move, and its result does
not depend on `winc` or `binc`. -/
theorem claim8_search_with_ponder_selects_clock {B T α : Type}
    (searchFn : B → T → Bool → α) (turn : B → Bool) (board : B)
    (wtime btime winc binc winc2 binc2 : T) (ponder : Bool) :
    (turn board = true →
      MinimalEngine.search_with_ponder searchFn turn board wtime btime winc binc ponder =
        searchFn board wtime ponder) ∧
    (turn board = false →
      MinimalEngine.search_with_ponder searchFn turn board wtime btime winc binc ponder =
        searchFn board btime ponder) ∧
    MinimalEngine.search_with_ponder searchFn turn board wtime btime winc binc ponder =
      MinimalEngine.search_with_ponder searchFn turn board wtime btime winc2 binc2 ponder := by
  refine ⟨?_, ?_, rfl⟩
  · intro h
    simp [MinimalEngine.search_with_ponder, h]
  · intro h
    simp [MinimalEngine.search_with_ponder, h]

/-- Witness for C8 at concrete inputs: a white-to-move board returns the
white clock. -/
theorem claim8_witness :
    MinimalEngine.search_with_ponder (fun (_ : Bool) (t : ℕ) (_ : Bool) => t)
      (fun b => b) true 3 4 9 11 false = 3 :=
  (claim8_search_with_ponder_selects_clock (fun (_ : Bool) (t : ℕ) (_ : Bool) => t)
    (fun b => b) true 3 4 9 11 9 11 false).1 rfl

/-- C9 (amended): for every method name that normal Python attribute lookup
does not resolve — other than the instance attributes `id`, `name` and
`main_engine` stored by the constructor and the attributes found on the class
or inherited from `object` (`FillerEngine.classAttrs`) — accessing that
attribute on a `FillerEngine` shim yields a bound method; calling it invokes
the owning engine's `notify(method_name, args...)` and returns its result,
and `MinimalEngine`'s default `notify` returns `None` for all inputs.  A name
resolved through the class MRO yields the class attribute, never the
`notify`-forwarding closure. -/
theorem claim9_shim_forwards_to_notify {V : Type} (fe : FillerEngine V)
    (method_name : String) (h1 : method_name ≠ "id") (h2 : method_name ≠ "name")
    (h3 : method_name ≠ "main_engine")
    (h4 : method_name ∉ FillerEngine.classAttrs) :
    FillerEngine.getattr fe method_name =
      Attr.method (fun args => fe.mainNotify method_name args) ∧
    (∀ args : List V, MinimalEngine.notify method_name args = none) ∧
    (∀ cname ∈ FillerEngine.classAttrs,
      FillerEngine.getattr fe cname = Attr.classAttr cname) := by
  refine ⟨?_, fun args => rfl, ?_⟩
  · unfold FillerEngine.getattr
    rw [if_neg h1, if_neg h2, if_neg h3, if_neg h4]
  · intro cname hc
    have hid : cname ≠ "id" := by
      intro h
      rw [h] at hc
      exact absurd hc (by decide)
    have hname : cname ≠ "name" := by
      intro h
      rw [h] at hc
      exact absurd hc (by decide)
    have hmain : cname ≠ "main_engine" := by
      intro h
      rw [h] at hc
      exact absurd hc (by decide)
    unfold FillerEngine.getattr
    rw [if_neg hid, if_neg hname, if_neg hmain, if_pos hc]

/-- Witness for C9 (amended) at the concrete shim `exFE` and method name
`quit`, which neither the instance dictionary nor the class resolves. -/
theorem claim9_witness :
    FillerEngine.getattr exFE "quit" =
      Attr.method (fun args => exFE.mainNotify "quit" args) ∧
    (∀ args : List ℕ, MinimalEngine.notify "quit" args = none) ∧
    (∀ cname ∈ FillerEngine.classAttrs,
      FillerEngine.getattr exFE cname = Attr.classAttr cname) :=
  claim9_shim_forwards_to_notify exFE "quit" (by decide) (by decide) (by decide)
    (by decide)

/-- Counterexample to C9 as stated: accessing the attribute `id` on the shim
returns the stored instance attribute (a plain value, set in the constructor
and by `MinimalEngine.__init__`), not a method forwarding to `notify` —
`__getattr__` only fires for names that neither the instance dictionary nor
the class MRO resolves. -/
theorem claim9_counterexample :
    FillerEngine.getattr exFE "id" = Attr.value 0 ∧
    ¬ ∃ f, FillerEngine.getattr exFE "id" = Attr.method f := by
  constructor
  · rfl
  · rintro ⟨f, hf⟩
    have hv : FillerEngine.getattr exFE "id" = Attr.value 0 := rfl
    rw [hv] at hf
    exact Attr.noConfusion hf

theorem runMin_nil {M : Type} (f : M → ℚ) (b : ℚ) : runMin f b [] = b := rfl

theorem runMin_cons {M : Type} (f : M → ℚ) (b : ℚ) (m : M) (l : List M) :
    runMin f b (m :: l) = runMin f (min b (f m)) l := rfl

theorem runMin_le {M : Type} (f : M → ℚ) (b : ℚ) (l : List M) : runMin f b l ≤ b := by
  induction l generalizing b with
  | nil => exact le_refl b
  | cons m t ih => exact le_trans (ih (min b (f m))) (min_le_left b (f m))

theorem runMin_bound {M : Type} (f : M → ℚ) (b : ℚ) (l : List M) :
    ∀ x ∈ l, runMin f b l ≤ f x := by
  induction l generalizing b with
  | nil => intro x hx; cases hx
  | cons m t ih =>
    intro x hx
    rcases List.mem_cons.mp hx with h | h
    · rw [h]
      exact le_trans (runMin_le f (min b (f m)) t) (min_le_right b (f m))
    · exact ih (min b (f m)) x h

theorem runMin_mem {M : Type} (f : M → ℚ) (b : ℚ) (l : List M) :
    runMin f b l = b ∨ ∃ x ∈ l, runMin f b l = f x := by
  induction l generalizing b with
  | nil => exact Or.inl rfl
  | cons m t ih =>
    rw [runMin_cons]
    rcases ih (min b (f m)) with h | h
    · rcases min_choice b (f m) with hm | hm
      · exact Or.inl (h.trans hm)
      · exact Or.inr ⟨m, List.mem_cons_self m t, h.trans hm⟩
    · rcases h with ⟨x, hx, hfx⟩
      exact Or.inr ⟨x, List.mem_cons_of_mem m hx, hfx⟩

theorem ILoveDraws.loop_early {M : Type} (oracle : M → ℚ) (threshold : ℚ) (r : ℕ) :
    ∀ (l1 : List M) (m : M) (l2 : List M) (st : Option ℚ × List M × List M),
      (∀ x ∈ l1, ¬ (|oracle x| ≤ threshold)) → |oracle m| ≤ threshold →
      ILoveDraws.loop oracle threshold r (l1 ++ m :: l2) st =
        (some m, st.2.2 ++ (l1 ++ [m])) := by
  intro l1
  induction l1 with
  | nil =>
    intro m l2 st hall hm
    rcases st with ⟨minAbs, ties, queried⟩
    simp only [List.nil_append, ILoveDraws.loop, if_pos hm]
  | cons x t ih =>
    intro m l2 st hall hm
    rcases st with ⟨minAbs, ties, queried⟩
    have hx : ¬ (|oracle x| ≤ threshold) := hall x (List.mem_cons_self x t)
    have hall2 : ∀ y ∈ t, ¬ (|oracle y| ≤ threshold) :=
      fun y hy => hall y (List.mem_cons_of_mem x hy)
    cases minAbs with
    | none =>
      simp only [List.cons_append, ILoveDraws.loop, if_neg hx]
      simp [ih m l2 (some |oracle x|, [x], queried ++ [x]) hall2 hm]
    | some b =>
      simp only [List.cons_append, ILoveDraws.loop, if_neg hx]
      by_cases h1 : |oracle x| < b
      · rw [if_pos h1]
        simp [ih m l2 (some |oracle x|, [x], queried ++ [x]) hall2 hm]
      · rw [if_neg h1]
        by_cases h2 : |oracle x| = b
        · rw [if_pos h2]
          simp [ih m l2 (some b, ties ++ [x], queried ++ [x]) hall2 hm]
        · rw [if_neg h2]
          simp [ih m l2 (some b, ties, queried ++ [x]) hall2 hm]

theorem ILoveDraws.loop_nohit {M : Type} (oracle : M → ℚ) (threshold : ℚ) (r : ℕ) :
    ∀ (l : List M) (b : ℚ) (ties queried : List M),
      (∀ x ∈ l, ¬ (|oracle x| ≤ threshold)) →
      ILoveDraws.loop oracle threshold r l (some b, ties, queried) =
        (randomChoice
          ((if b = runMin (fun x => |oracle x|) b l then ties else []) ++
            l.filter (fun x =>
              decide (|oracle x| = runMin (fun x => |oracle x|) b l))) r,
         queried ++ l) := by
  intro l
  induction l with
  | nil =>
    intro b ties queried hall
    simp [ILoveDraws.loop, runMin_nil]
  | cons m t ih =>
    intro b ties queried hall
    have hm : ¬ (|oracle m| ≤ threshold) := hall m (List.mem_cons_self m t)
    have hall2 : ∀ y ∈ t, ¬ (|oracle y| ≤ threshold) :=
      fun y hy => hall y (List.mem_cons_of_mem m hy)
    simp only [ILoveDraws.loop, if_neg hm]
    rcases lt_trichotomy (|oracle m|) b with hlt | heq | hgt
    · rw [if_pos hlt]
      rw [ih (|oracle m|) [m] (queried ++ [m]) hall2]
      have hmin : runMin (fun x => |oracle x|) b (m :: t) =
          runMin (fun x => |oracle x|) (|oracle m|) t := by
        rw [runMin_cons, min_eq_right hlt.le]
      have hbne : ¬ (b = runMin (fun x => |oracle x|) b (m :: t)) := by
        rw [hmin]
        intro hb
        have := runMin_le (fun x => |oracle x|) (|oracle m|) t
        rw [← hb] at this
        exact absurd (lt_of_le_of_lt this hlt) (lt_irrefl b)
      rw [if_neg hbne, hmin, List.filter_cons]
      by_cases he : |oracle m| = runMin (fun x => |oracle x|) (|oracle m|) t
      · rw [if_pos he, if_pos (decide_eq_true he)]
        simp
      · rw [if_neg he, if_neg (by simpa using he)]
        simp
    · rw [if_neg (by rw [heq]; exact lt_irrefl b), if_pos heq]
      rw [ih b (ties ++ [m]) (queried ++ [m]) hall2]
      have hmin : runMin (fun x => |oracle x|) b (m :: t) =
          runMin (fun x => |oracle x|) b t := by
        rw [runMin_cons, heq, min_self]
      rw [hmin, List.filter_cons]
      by_cases hw : b = runMin (fun x => |oracle x|) b t
      · have hme : |oracle m| = runMin (fun x => |oracle x|) b t := by rw [heq, ← hw]
        rw [if_pos hw, if_pos hw, if_pos (decide_eq_true hme)]
        simp
      · have hme : ¬ (|oracle m| = runMin (fun x => |oracle x|) b t) := by
          rw [heq]
          exact hw
        rw [if_neg hw, if_neg hw, if_neg (by simpa using hme)]
        simp
    · rw [if_neg (not_lt.mpr hgt.le), if_neg (ne_of_gt hgt)]
      rw [ih b ties (queried ++ [m]) hall2]
      have hmin : runMin (fun x => |oracle x|) b (m :: t) =
          runMin (fun x => |oracle x|) b t := by
        rw [runMin_cons, min_eq_left hgt.le]
      have hne2 : ¬ (|oracle m| = runMin (fun x => |oracle x|) b t) := by
        intro hb
        have hle := runMin_le (fun x => |oracle x|) b t
        rw [← hb] at hle
        exact absurd hgt (not_lt.mpr hle)
      rw [hmin, List.filter_cons, if_neg (by simpa using hne2 : ¬ (decide (|oracle m| =
        runMin (fun x => |oracle x|) b t) = true))]
      simp

theorem ILoveDraws.search_nohit {M : Type} (oracle : M → ℚ) (threshold : ℚ) (m : M)
    (rest : List M) (r : ℕ)
    (hall : ∀ x ∈ m :: rest, ¬ (|oracle x| ≤ threshold)) :
    ILoveDraws.search oracle threshold (m :: rest) r =
      (randomChoice ((m :: rest).filter (fun x =>
        decide (|oracle x| = runMin (fun x => |oracle x|) (|oracle m|) rest))) r,
       m :: rest) := by
  have hm : ¬ (|oracle m| ≤ threshold) := hall m (List.mem_cons_self m rest)
  have hall2 : ∀ y ∈ rest, ¬ (|oracle y| ≤ threshold) :=
    fun y hy => hall y (List.mem_cons_of_mem m hy)
  unfold ILoveDraws.search
  simp only [ILoveDraws.loop, if_neg hm, List.nil_append]
  rw [ILoveDraws.loop_nohit oracle threshold r rest (|oracle m|) [m] [m] hall2]
  rw [List.filter_cons]
  by_cases he : |oracle m| = runMin (fun x => |oracle x|) (|oracle m|) rest
  · rw [if_pos he, if_pos (decide_eq_true he)]
    simp
  · rw [if_neg he, if_neg (by simpa using he : ¬ (decide (|oracle m| =
      runMin (fun x => |oracle x|) (|oracle m|) rest) = true))]
    simp

/-- C2 (modelled from the spec, `ILoveDraws` being absent from `src/`): the
drawishness threshold defaults to `0.1`; `ILoveDraws.search` returns the first
shuffled candidate whose absolute oracle evaluation is at most the threshold
immediately, querying the oracle only for the candidates up to and including
it; and when no candidate meets the threshold it returns a uniformly random
move among those tied at the minimum absolute evaluation. -/
theorem claim2_ilovedraws_early_exit_and_min {M : Type} (oracle : M → ℚ)
    (threshold : ℚ) (r : ℕ) :
    ILoveDraws.threshold = 1/10 ∧
    (∀ (l1 : List M) (m : M) (l2 : List M),
      (∀ x ∈ l1, threshold < |oracle x|) →
      |oracle m| ≤ threshold →
      ILoveDraws.search oracle threshold (l1 ++ m :: l2) r = (some m, l1 ++ [m])) ∧
    (∀ shuffled : List M, shuffled ≠ [] →
      (∀ x ∈ shuffled, threshold < |oracle x|) →
      ∃ B : ℚ,
        (∀ x ∈ shuffled, B ≤ |oracle x|) ∧
        (∃ x ∈ shuffled, |oracle x| = B) ∧
        (∀ mv, (ILoveDraws.search oracle threshold shuffled r).1 = some mv →
          mv ∈ shuffled ∧ |oracle mv| = B) ∧
        (∃ mv, (ILoveDraws.search oracle threshold shuffled r).1 = some mv) ∧
        (∀ mv ∈ shuffled, |oracle mv| = B →
          ∃ i, (ILoveDraws.search oracle threshold shuffled i).1 = some mv)) := by
  refine ⟨rfl, ?_, ?_⟩
  · intro l1 m l2 hall hm
    have hall2 : ∀ x ∈ l1, ¬ (|oracle x| ≤ threshold) :=
      fun x hx => not_le.mpr (hall x hx)
    have := ILoveDraws.loop_early oracle threshold r l1 m l2 (none, [], []) hall2 hm
    unfold ILoveDraws.search
    rw [this]
    simp
  · intro shuffled hne hall
    obtain ⟨m, rest, hl⟩ := List.exists_cons_of_ne_nil hne
    subst hl
    have hall2 : ∀ x ∈ m :: rest, ¬ (|oracle x| ≤ threshold) :=
      fun x hx => not_le.mpr (hall x hx)
    refine ⟨runMin (fun x => |oracle x|) (|oracle m|) rest, ?_, ?_, ?_, ?_, ?_⟩
    · intro x hx
      rcases List.mem_cons.mp hx with h | h
      · rw [h]
        exact runMin_le _ _ _
      · exact runMin_bound _ _ _ x h
    · rcases runMin_mem (fun x => |oracle x|) (|oracle m|) rest with h | h
      · exact ⟨m, List.mem_cons_self m rest, h.symm⟩
      · rcases h with ⟨x, hx, hfx⟩
        exact ⟨x, List.mem_cons_of_mem m hx, hfx.symm⟩
    · intro mv hmv
      rw [ILoveDraws.search_nohit oracle threshold m rest r hall2] at hmv
      have hmem := randomChoice_mem hmv
      have hfm := List.mem_filter.mp hmem
      exact ⟨hfm.1, of_decide_eq_true hfm.2⟩
    · have hBmem : ∃ x ∈ m :: rest,
          |oracle x| = runMin (fun x => |oracle x|) (|oracle m|) rest := by
        rcases runMin_mem (fun x => |oracle x|) (|oracle m|) rest with h | h
        · exact ⟨m, List.mem_cons_self m rest, h.symm⟩
        · rcases h with ⟨x, hx, hfx⟩
          exact ⟨x, List.mem_cons_of_mem m hx, hfx.symm⟩
      rcases hBmem with ⟨x, hx, hfx⟩
      have hxf : x ∈ (m :: rest).filter (fun x =>
          decide (|oracle x| = runMin (fun x => |oracle x|) (|oracle m|) rest)) :=
        List.mem_filter.mpr ⟨hx, decide_eq_true hfx⟩
      have hfne : (m :: rest).filter (fun x =>
          decide (|oracle x| = runMin (fun x => |oracle x|) (|oracle m|) rest)) ≠ [] := by
        intro h0
        rw [h0] at hxf
        cases hxf
      obtain ⟨mv, hmv⟩ := randomChoice_isSome r hfne
      refine ⟨mv, ?_⟩
      rw [ILoveDraws.search_nohit oracle threshold m rest r hall2]
      exact hmv
    · intro mv hmv hfmv
      have hxf : mv ∈ (m :: rest).filter (fun x =>
          decide (|oracle x| = runMin (fun x => |oracle x|) (|oracle m|) rest)) :=
        List.mem_filter.mpr ⟨hmv, decide_eq_true hfmv⟩
      obtain ⟨i, hi⟩ := randomChoice_surj hxf
      refine ⟨i, ?_⟩
      rw [ILoveDraws.search_nohit oracle threshold m rest i hall2]
      exact hi

/-- Witness for C2 at concrete inputs: a draw-level first candidate is
returned immediately, and with no candidate under the threshold the tied
minimum is returned. -/
theorem claim2_witness :
    (ILoveDraws.search (fun (_ : ℕ) => (0 : ℚ)) ILoveDraws.threshold
        ([] ++ 0 :: [1]) 0 = (some 0, [] ++ [0])) ∧
    (∃ B : ℚ,
      (∀ x ∈ [(5 : ℕ)], B ≤ |(fun (_ : ℕ) => (1 : ℚ)) x|) ∧
      (∃ x ∈ [(5 : ℕ)], |(fun (_ : ℕ) => (1 : ℚ)) x| = B) ∧
      (∀ mv, (ILoveDraws.search (fun (_ : ℕ) => (1 : ℚ)) ILoveDraws.threshold
          [5] 0).1 = some mv → mv ∈ [(5 : ℕ)] ∧ |(fun (_ : ℕ) => (1 : ℚ)) mv| = B) ∧
      (∃ mv, (ILoveDraws.search (fun (_ : ℕ) => (1 : ℚ)) ILoveDraws.threshold
          [5] 0).1 = some mv) ∧
      (∀ mv ∈ [(5 : ℕ)], |(fun (_ : ℕ) => (1 : ℚ)) mv| = B →
        ∃ i, (ILoveDraws.search (fun (_ : ℕ) => (1 : ℚ)) ILoveDraws.threshold
          [5] i).1 = some mv)) :=
  ⟨(claim2_ilovedraws_early_exit_and_min (fun (_ : ℕ) => (0 : ℚ))
      ILoveDraws.threshold 0).2.1 [] 0 [1] (by simp)
      (by norm_num [ILoveDraws.threshold]),
   (claim2_ilovedraws_early_exit_and_min (fun (_ : ℕ) => (1 : ℚ))
      ILoveDraws.threshold 0).2.2 [5] (by decide)
      (by intro x hx; norm_num [ILoveDraws.threshold])⟩
